import Mathlib

/-!
Verification of the branch-name derivation pipeline of `gnb`
(`src/main.rs`): the slug sanitizer, the name builder, the collision
resolver and the prefix resolution logic, embedded shallowly over
`List Char` (one entry per Unicode scalar value, matching Rust's
`str::chars`).

External inputs that the Rust code reads through I/O (the current date,
the `GNB_PREFIX` environment variable, the `id -un` output, the set of
existing branch names) are passed to the embedded functions as explicit
parameters.
-/

/-- Rust `char::is_whitespace`: the Unicode `White_Space` property.
The property holds for exactly the 25 scalar values enumerated here
(Unicode 15), so this is an exact model. -/
def rust_is_whitespace (c : Char) : Bool :=
  decide (c.toNat = 0x09) || decide (c.toNat = 0x0A) || decide (c.toNat = 0x0B) ||
  decide (c.toNat = 0x0C) || decide (c.toNat = 0x0D) || decide (c.toNat = 0x20) ||
  decide (c.toNat = 0x85) || decide (c.toNat = 0xA0) || decide (c.toNat = 0x1680) ||
  (decide (0x2000 ≤ c.toNat) && decide (c.toNat ≤ 0x200A)) ||
  decide (c.toNat = 0x2028) || decide (c.toNat = 0x2029) || decide (c.toNat = 0x202F) ||
  decide (c.toNat = 0x205F) || decide (c.toNat = 0x3000)

/-- Rust `char::is_alphanumeric` (Unicode Alphabetic or numeric), restricted
faithfully to the Latin-1 range: on every scalar value below `0x100` this
agrees exactly with Rust's classification (ASCII letters and digits, plus
`ª ² ³ µ ¹ º ¼ ½ ¾` and the Latin-1 letters `À`–`ÿ` except `×` and `÷`).
Above `0x100` it returns `false`; all concrete evaluations in this file use
only Latin-1 characters, and every universally quantified theorem about the
sanitizer is stated for an arbitrary classifier, so it covers the real one. -/
def rust_is_alphanumeric (c : Char) : Bool :=
  (decide (65 ≤ c.toNat) && decide (c.toNat ≤ 90)) ||
  (decide (97 ≤ c.toNat) && decide (c.toNat ≤ 122)) ||
  (decide (48 ≤ c.toNat) && decide (c.toNat ≤ 57)) ||
  decide (c.toNat = 0xAA) || decide (c.toNat = 0xB2) || decide (c.toNat = 0xB3) ||
  decide (c.toNat = 0xB5) || decide (c.toNat = 0xB9) || decide (c.toNat = 0xBA) ||
  decide (c.toNat = 0xBC) || decide (c.toNat = 0xBD) || decide (c.toNat = 0xBE) ||
  (decide (0xC0 ≤ c.toNat) && decide (c.toNat ≤ 0xD6)) ||
  (decide (0xD8 ≤ c.toNat) && decide (c.toNat ≤ 0xF6)) ||
  (decide (0xF8 ≤ c.toNat) && decide (c.toNat ≤ 0xFF))

/-- ASCII digit test (`0`–`9`), used to state properties of date stamps. -/
def is_ascii_digit (c : Char) : Bool :=
  decide (48 ≤ c.toNat) && decide (c.toNat ≤ 57)

/-- `is_allowed_branch_char` from `src/main.rs`:
`c.is_alphanumeric() || matches!(c, '.' | '_' | '+' | '-')`.
The alphanumeric classifier is passed as the parameter `isAlnum`. -/
def is_allowed_branch_char (isAlnum : Char → Bool) (c : Char) : Bool :=
  isAlnum c || decide (c = '.') || decide (c = '_') || decide (c = '+') || decide (c = '-')

/-- The mutable state of the scanning loop in `sanitize_component`:
the accumulated `result` string plus the two boolean flags. -/
structure ScanState where
  result : List Char
  prev_was_separator : Bool
  prev_was_dot : Bool
deriving DecidableEq

/-- `push_separator` from `src/main.rs`: push `'-'` unless the previous
emitted character was already a separator; always clear the dot flag. -/
def push_separator (st : ScanState) : ScanState :=
  ⟨if st.prev_was_separator then st.result else st.result ++ ['-'], true, false⟩

/-- The `if c == '/' { c = '-' }` reassignment at the top of the loop body
of `sanitize_component`. -/
def map_slash (c : Char) : Char :=
  if c = '/' then '-' else c

/-- One iteration of the `for mut c in name.chars()` loop body of
`sanitize_component`: map `/` to `-`, collapse whitespace and disallowed
characters to separators, handle the three dot cases, and push every other
allowed character. -/
def scan_step (isAlnum : Char → Bool) (st : ScanState) (c0 : Char) : ScanState :=
  if rust_is_whitespace (map_slash c0) then push_separator st
  else if !(is_allowed_branch_char isAlnum (map_slash c0)) then push_separator st
  else if map_slash c0 = '.' then
    if st.result.isEmpty || st.prev_was_separator then push_separator st
    else if st.prev_was_dot then
      push_separator ⟨st.result.dropLast, st.prev_was_separator, st.prev_was_dot⟩
    else ⟨st.result ++ ['.'], false, true⟩
  else ⟨st.result ++ [map_slash c0], decide (map_slash c0 = '-'), false⟩

/-- The `result` string after the scanning loop of `sanitize_component`,
started from the empty string with both flags false. -/
def scan_result (isAlnum : Char → Bool) (name : List Char) : List Char :=
  (name.foldl (scan_step isAlnum) ⟨[], false, false⟩).result

/-- The trimming predicate `|c| c == '-' || c == '.'` of `sanitize_component`. -/
def dash_or_dot (c : Char) : Bool :=
  decide (c = '-') || decide (c = '.')

/-- Rust `str::trim_matches`: strip characters satisfying `p` from both
ends of the string. -/
def trim_matches (p : Char → Bool) (l : List Char) : List Char :=
  ((l.dropWhile p).reverse.dropWhile p).reverse

/-- Rust `str::trim`: strip Unicode whitespace from both ends. -/
def rust_trim (l : List Char) : List Char :=
  trim_matches rust_is_whitespace l

/-- The reserved suffix `".lock"` as a character list. -/
def lock_chars : List Char := ['.', 'l', 'o', 'c', 'k']

/-- The `.lock` neutralization step of `sanitize_component`: when `cleaned`
ends with `".lock"`, replace the `'.'` that starts that suffix with `'-'`
(`replace_range(dot_index..dot_index + 1, "-")` with
`dot_index = cleaned.len() - 5`; the suffix is pure ASCII, so the byte
index always falls on that dot). -/
def lock_fix (cleaned : List Char) : List Char :=
  if lock_chars <:+ cleaned then
    cleaned.take (cleaned.length - 5) ++ ('-' :: ['l', 'o', 'c', 'k'])
  else cleaned

/-- The `cleaned` local of `sanitize_component`: the scanned result with all
leading and trailing `'-'` and `'.'` characters trimmed, before the `.lock`
neutralization. -/
def cleaned_of (isAlnum : Char → Bool) (name : List Char) : List Char :=
  trim_matches dash_or_dot (scan_result isAlnum name)

/-- `sanitize_component` from `src/main.rs`: scan, trim, neutralize `.lock`. -/
def sanitize_component (isAlnum : Char → Bool) (name : List Char) : List Char :=
  lock_fix (cleaned_of isAlnum name)

/-- Decimal digits of `n` (most significant first), as produced by Rust's
`format!("{}", n)` for a `Nat`. -/
def nat_digits (n : Nat) : List Char := Nat.toDigits 10 n

/-- Zero-padded two-digit decimal rendering, as produced by the chrono
format specifiers `%y`, `%m`, `%d` for values below 100 (the only values
chrono ever feeds them). -/
def pad2 (n : Nat) : List Char :=
  [Char.ofNat (48 + n / 10 % 10), Char.ofNat (48 + n % 10)]

/-- `today_stamp` from `src/main.rs`, `Local::now().format("%y%m%d")`,
with the current date passed in as explicit two-digit fields
(year mod 100, month, day). -/
def today_stamp (y m d : Nat) : List Char :=
  pad2 y ++ pad2 m ++ pad2 d

/-- `sanitize` from `src/main.rs`: `sanitize_component`, falling back to the
date stamp when the result is empty. The stamp is passed as a parameter. -/
def sanitize (isAlnum : Char → Bool) (stamp : List Char) (name : List Char) : List Char :=
  let sanitized := sanitize_component isAlnum name
  if sanitized = [] then stamp else sanitized

/-- `build_base_name` from `src/main.rs`: empty argument list gives the date
stamp (passed as a parameter), otherwise `args.join(" ")`. -/
def build_base_name (stamp : List Char) (args : List (List Char)) : List Char :=
  if args = [] then stamp else List.intercalate [' '] args

/-- `format!("{}_{}", candidate, i)` from `pick_available_name`. -/
def with_suffix (candidate : List Char) (i : Nat) : List Char :=
  candidate ++ '_' :: nat_digits i

/-- The `for i in 2..=100` loop of `pick_available_name`, over an explicit
list of indices to probe: return the first probe not in `existing`,
`none` (the `bail!` exhaustion error) when the list runs out. -/
def try_suffixes (candidate : List Char) (existing : List (List Char)) :
    List Nat → Option (List Char)
  | [] => none
  | i :: rest =>
    if with_suffix candidate i ∈ existing then try_suffixes candidate existing rest
    else some (with_suffix candidate i)

/-- The index sequence `2..=100` probed by `pick_available_name`. -/
def probe_indices : List Nat := (List.range 99).map (· + 2)

/-- `pick_available_name` from `src/main.rs`: the candidate itself when it
is not an existing name, otherwise the first available `_i` probe for
`i` in `2..=100`; `none` models the exhaustion `bail!`. The `existing`
snapshot is a membership structure only, modelled as a list. -/
def pick_available_name (candidate : List Char) (existing : List (List Char)) :
    Option (List Char) :=
  if candidate ∈ existing then try_suffixes candidate existing probe_indices
  else some candidate

/-- The two validation failures of `get_prefix`: `GNB_PREFIX` sanitizes to
empty, or the system username sanitizes to empty. -/
inductive PrefixError where
  | envInvalid
  | userInvalid
deriving DecidableEq

/-- `get_prefix` from `src/main.rs`, with the environment variable and the
(already successfully resolved, UTF-8) `id -un` output passed as
parameters. `env_var = some p` models `GNB_PREFIX` being set to `p`;
the code falls back to the username when the variable is unset or its
trimmed value is empty. The raw prefix is trimmed, sanitized, and checked
for emptiness, with the error distinguishing the source. -/
def get_prefix_fn (isAlnum : Char → Bool) (env_var : Option (List Char))
    (username : List Char) : Except PrefixError (List Char) :=
  let pair : List Char × Bool :=
    match env_var with
    | some p => if rust_trim p = [] then (rust_trim username, false) else (p, true)
    | none => (rust_trim username, false)
  let sanitized := sanitize_component isAlnum (rust_trim pair.1)
  if sanitized = [] then
    Except.error (if pair.2 then PrefixError.envInvalid else PrefixError.userInvalid)
  else
    Except.ok sanitized

/-- The character set named by the specification for sanitizer output:
`{A-Za-z0-9._+-}`, i.e. ASCII letters, ASCII digits, dot, underscore,
plus, hyphen. Written from the spec's words, for comparison with the
code's `is_allowed_branch_char`. -/
def ascii_branch_char (c : Char) : Bool :=
  (decide (65 ≤ c.toNat) && decide (c.toNat ≤ 90)) ||
  (decide (97 ≤ c.toNat) && decide (c.toNat ≤ 122)) ||
  (decide (48 ≤ c.toNat) && decide (c.toNat ≤ 57)) ||
  decide (c = '.') || decide (c = '_') || decide (c = '+') || decide (c = '-')

/-- Characters the scanning loop can emit: not whitespace, allowed, and
never a literal slash. -/
def good_out (isAlnum : Char → Bool) (c : Char) : Prop :=
  rust_is_whitespace c = false ∧ is_allowed_branch_char isAlnum c = true ∧ c ≠ '/'

/-- Whether some adjacent pair of characters in the list satisfies `p`. -/
def has_adj (p : Char → Char → Bool) : List Char → Bool
  | a :: b :: t => p a b || has_adj p (b :: t)
  | _ => false

/-- The pair formed at the junction of an append, when both sides are
nonempty. -/
def adj_junction (p : Char → Char → Bool) (u v : List Char) : Bool :=
  match u.getLast?, v.head? with
  | some a, some b => p a b
  | _, _ => false

/-- A dot preceded by a separator or another dot: the adjacency the
scanning loop never produces. -/
def bad_dot_pair (a b : Char) : Bool :=
  decide (b = '.') && (decide (a = '-') || decide (a = '.'))

/-- Two consecutive dots. -/
def dd_pair (a b : Char) : Bool :=
  decide (a = '.') && decide (b = '.')

/-- The condition under which rescanning a string reproduces it verbatim,
threaded with the character preceding the remainder (`none` at the start):
every dot must be preceded by a character that is neither a separator nor
a dot. -/
def dot_ok_from : Option Char → List Char → Bool
  | _, [] => true
  | p, b :: t =>
    (if b = '.' then
      match p with
      | some a => !(decide (a = '-') || decide (a = '.'))
      | none => false
    else true) && dot_ok_from (some b) t

/-- Invariant of the scanning loop: the two flags mirror the last emitted
character, every emitted character is good, and no dot is immediately
preceded by a separator or another dot. -/
structure ScanInv (isAlnum : Char → Bool) (st : ScanState) : Prop where
  sep_iff : st.prev_was_separator = decide (st.result.getLast? = some '-')
  dot_iff : st.prev_was_dot = decide (st.result.getLast? = some '.')
  good : ∀ c ∈ st.result, good_out isAlnum c
  nodot : has_adj bad_dot_pair st.result = false

/-- A string on which `sanitize_component` acts as the identity: every
character is good, every dot is properly preceded, neither end is a dash
or a dot, and the string does not end in `".lock"`. -/
structure CleanStr (isAlnum : Char → Bool) (l : List Char) : Prop where
  good : ∀ c ∈ l, good_out isAlnum c
  dots : dot_ok_from none l = true
  head_ok : ∀ a, l.head? = some a → dash_or_dot a = false
  last_ok : ∀ a, l.getLast? = some a → dash_or_dot a = false
  no_lock : ¬ lock_chars <:+ l

-- Model validation against the unit tests of `src/main.rs` (an arbitrary
-- valid stamp stands in for the current date where the tests use one).

example : sanitize rust_is_alphanumeric "251231".toList "ABC-123".toList = "ABC-123".toList := by decide
example : sanitize rust_is_alphanumeric "251231".toList "fix login bug".toList = "fix-login-bug".toList := by decide
example : sanitize rust_is_alphanumeric "251231".toList "multiple   spaces".toList = "multiple-spaces".toList := by decide
example : sanitize rust_is_alphanumeric "251231".toList "feature/sub".toList = "feature-sub".toList := by decide
example : sanitize rust_is_alphanumeric "251231".toList "fix@#$%bug".toList = "fix-bug".toList := by decide
example : sanitize rust_is_alphanumeric "251231".toList "a!b@c#d".toList = "a-b-c-d".toList := by decide
example : sanitize rust_is_alphanumeric "251231".toList "v1.2.3".toList = "v1.2.3".toList := by decide
example : sanitize rust_is_alphanumeric "251231".toList "feat_name".toList = "feat_name".toList := by decide
example : sanitize rust_is_alphanumeric "251231".toList "test+plus".toList = "test+plus".toList := by decide
example : sanitize rust_is_alphanumeric "251231".toList ".leading".toList = "leading".toList := by decide
example : sanitize rust_is_alphanumeric "251231".toList "trailing.".toList = "trailing".toList := by decide
example : sanitize rust_is_alphanumeric "251231".toList "double..dot".toList = "double-dot".toList := by decide
example : sanitize rust_is_alphanumeric "251231".toList "build.lock".toList = "build-lock".toList := by decide
example : sanitize rust_is_alphanumeric "251231".toList "!@#$%".toList = "251231".toList := by decide
example : sanitize rust_is_alphanumeric "251231".toList "-hello-".toList = "hello".toList := by decide
example : sanitize rust_is_alphanumeric "251231".toList "--test--".toList = "test".toList := by decide
example : pick_available_name "user/240101".toList [] = some ("user/240101".toList) := by decide
example : pick_available_name "user/240101".toList
    ["user/240101".toList, "user/240101_2".toList, "user/240101_3".toList] =
    some ("user/240101_4".toList) := by decide

-- Generic helper lemmas about adjacency, trimming and list ends.

theorem mem_of_getLast?_eq (l : List Char) (a : Char) (h : l.getLast? = some a) : a ∈ l := by
  have hr : l.reverse.head? = some a := by rw [List.head?_reverse, h]
  have := List.mem_of_mem_head? (l := l.reverse) (a := a) (by rw [hr]; exact rfl)
  exact List.mem_reverse.mp this

theorem has_adj_tail (p : Char → Char → Bool) (a : Char) (t : List Char)
    (h : has_adj p (a :: t) = false) : has_adj p t = false := by
  cases t with
  | nil => rfl
  | cons b t' =>
    rw [has_adj, Bool.or_eq_false_iff] at h
    exact h.2

theorem has_adj_append (p : Char → Char → Bool) (u v : List Char) :
    has_adj p (u ++ v) = (has_adj p u || has_adj p v || adj_junction p u v) := by
  induction u with
  | nil =>
    simp [has_adj, adj_junction]
  | cons a u' ih =>
    cases u' with
    | nil =>
      cases v with
      | nil => simp [has_adj, adj_junction]
      | cons b t =>
        simp only [List.singleton_append, has_adj, adj_junction, List.getLast?_singleton,
          List.head?_cons]
        cases p a b <;> simp
    | cons c u'' =>
      have hl : (a :: c :: u'') ++ v = a :: ((c :: u'') ++ v) := rfl
      have hj : adj_junction p (a :: c :: u'') v = adj_junction p (c :: u'') v := by
        simp [adj_junction, List.getLast?_cons_cons]
      have e1 : has_adj p (a :: ((c :: u'') ++ v)) = (p a c || has_adj p ((c :: u'') ++ v)) := rfl
      have e2 : has_adj p (a :: c :: u'') = (p a c || has_adj p (c :: u'')) := rfl
      rw [hl, e1, ih, e2, hj]
      cases p a c <;> simp [Bool.or_assoc]

theorem has_adj_reverse (p : Char → Char → Bool) (l : List Char) :
    has_adj p l.reverse = has_adj (fun a b => p b a) l := by
  induction l with
  | nil => rfl
  | cons a t ih =>
    rw [List.reverse_cons, has_adj_append, ih]
    cases t with
    | nil => simp [has_adj, adj_junction]
    | cons b t' =>
      have hj : adj_junction p (b :: t').reverse [a] = p b a := by
        simp [adj_junction, List.getLast?_reverse]
      rw [hj]
      rw [show has_adj (fun a b => p b a) (a :: b :: t') =
        (p b a || has_adj (fun a b => p b a) (b :: t')) from rfl]
      cases p b a <;> simp [has_adj]

theorem has_adj_append_parts (p : Char → Char → Bool) (u v : List Char)
    (h : has_adj p (u ++ v) = false) :
    has_adj p u = false ∧ has_adj p v = false ∧ adj_junction p u v = false := by
  rw [has_adj_append, Bool.or_eq_false_iff, Bool.or_eq_false_iff] at h
  exact ⟨h.1.1, h.1.2, h.2⟩

theorem has_adj_suffix (p : Char → Char → Bool) (u l : List Char) (hs : u <:+ l)
    (h : has_adj p l = false) : has_adj p u = false := by
  obtain ⟨w, rfl⟩ := hs
  exact (has_adj_append_parts p w u h).2.1

theorem has_adj_mono (p q : Char → Char → Bool) (hpq : ∀ a b, p a b = true → q a b = true)
    (l : List Char) (h : has_adj q l = false) : has_adj p l = false := by
  induction l with
  | nil => rfl
  | cons a t ih =>
    cases t with
    | nil => rfl
    | cons b t' =>
      rw [has_adj, Bool.or_eq_false_iff] at h ⊢
      refine ⟨?_, ih h.2⟩
      cases hp : p a b
      · rfl
      · exact absurd (hpq a b hp) (by simp [h.1])

theorem head?_dropWhile (p : Char → Bool) (l : List Char) (a : Char)
    (h : (l.dropWhile p).head? = some a) : p a = false := by
  induction l with
  | nil => simp [List.dropWhile] at h
  | cons x t ih =>
    rw [List.dropWhile_cons] at h
    by_cases hx : p x = true
    · rw [if_pos hx] at h
      exact ih h
    · rw [if_neg hx] at h
      simp only [List.head?_cons, Option.some.injEq] at h
      subst h
      exact Bool.eq_false_iff.mpr hx

theorem trim_matches_subset (p : Char → Bool) (l : List Char) (c : Char)
    (h : c ∈ trim_matches p l) : c ∈ l := by
  unfold trim_matches at h
  rw [List.mem_reverse] at h
  have h1 : c ∈ (l.dropWhile p).reverse := (List.dropWhile_sublist p).subset h
  rw [List.mem_reverse] at h1
  exact (List.dropWhile_sublist p).subset h1

theorem trim_matches_head (p : Char → Bool) (l : List Char) (a : Char)
    (h : (trim_matches p l).head? = some a) : p a = false := by
  unfold trim_matches at h
  rw [List.head?_reverse] at h
  set u := l.dropWhile p with hu
  set v := u.reverse.dropWhile p with hv
  obtain ⟨w, hw⟩ : v <:+ u.reverse := List.dropWhile_suffix p
  have h2 : u.reverse.getLast? = some a := by
    rw [← hw, List.getLast?_append, h]
    rfl
  rw [List.getLast?_reverse] at h2
  exact head?_dropWhile p l a (by rw [← hu]; exact h2)

theorem trim_matches_getLast (p : Char → Bool) (l : List Char) (a : Char)
    (h : (trim_matches p l).getLast? = some a) : p a = false := by
  unfold trim_matches at h
  rw [List.getLast?_reverse] at h
  exact head?_dropWhile p (l.dropWhile p).reverse a h

theorem has_adj_trim (q : Char → Char → Bool) (p : Char → Bool) (l : List Char)
    (h : has_adj q l = false) : has_adj q (trim_matches p l) = false := by
  unfold trim_matches
  rw [has_adj_reverse]
  have h1 : has_adj q (l.dropWhile p) = false :=
    has_adj_suffix q _ l (List.dropWhile_suffix p) h
  have h2 : has_adj (fun a b => q b a) (l.dropWhile p).reverse = false := by
    rw [has_adj_reverse]
    exact h1
  exact has_adj_suffix _ _ _ (List.dropWhile_suffix p) h2

-- Lemmas about the `.lock` neutralization step.

theorem lock_fix_of_suffix (w l : List Char) (hw : w ++ lock_chars = l) :
    lock_fix l = w ++ ('-' :: ['l', 'o', 'c', 'k']) := by
  have hs : lock_chars <:+ l := ⟨w, hw⟩
  unfold lock_fix
  rw [if_pos hs]
  subst hw
  have hlen : (w ++ lock_chars).length - 5 = w.length := by
    simp [List.length_append, lock_chars]
  rw [hlen, List.take_left]

theorem lock_fix_of_not_suffix (l : List Char) (h : ¬ lock_chars <:+ l) : lock_fix l = l := by
  unfold lock_fix
  rw [if_neg h]

theorem mem_lock_fix (l : List Char) (c : Char) (h : c ∈ lock_fix l) : c ∈ l ∨ c = '-' := by
  by_cases hs : lock_chars <:+ l
  · obtain ⟨w, hw⟩ := hs
    rw [lock_fix_of_suffix w l hw] at h
    rcases List.mem_append.mp h with h1 | h2
    · exact Or.inl (hw ▸ List.mem_append.mpr (Or.inl h1))
    · rcases List.mem_cons.mp h2 with rfl | h3
      · exact Or.inr rfl
      · refine Or.inl (hw ▸ List.mem_append.mpr (Or.inr ?_))
        unfold lock_chars
        simp only [List.mem_cons, List.mem_singleton] at h3 ⊢
        tauto
  · rw [lock_fix_of_not_suffix l hs] at h
    exact Or.inl h

theorem not_lock_suffix_lock_fix (l : List Char) : ¬ lock_chars <:+ lock_fix l := by
  by_cases hs : lock_chars <:+ l
  · obtain ⟨w, hw⟩ := hs
    rw [lock_fix_of_suffix w l hw]
    rintro ⟨u, hu⟩
    have hlen : u.length = w.length := by
      have hc := congrArg List.length hu
      simp [List.length_append, lock_chars] at hc
      omega
    have heq : lock_chars = '-' :: ['l', 'o', 'c', 'k'] := List.append_inj_right hu hlen
    exact absurd heq (by decide)
  · rw [lock_fix_of_not_suffix l hs]
    exact hs

theorem head?_lock_fix (l : List Char) (h : l.head? ≠ some '.') :
    (lock_fix l).head? = l.head? := by
  by_cases hs : lock_chars <:+ l
  · obtain ⟨w, hw⟩ := hs
    rw [lock_fix_of_suffix w l hw]
    cases w with
    | nil => exact absurd (by rw [← hw]; rfl) h
    | cons x w' =>
      rw [← hw]
      simp [List.head?_append]
  · rw [lock_fix_of_not_suffix l hs]

theorem getLast?_lock_fix_dash_dot (l : List Char)
    (hlast : ∀ a, l.getLast? = some a → dash_or_dot a = false) :
    ∀ a, (lock_fix l).getLast? = some a → dash_or_dot a = false := by
  by_cases hs : lock_chars <:+ l
  · obtain ⟨w, hw⟩ := hs
    rw [lock_fix_of_suffix w l hw]
    intro a ha
    rw [List.getLast?_append] at ha
    have hk : (('-' : Char) :: ['l', 'o', 'c', 'k']).getLast? = some 'k' := by decide
    rw [hk] at ha
    have ha2 : ('k' : Char) = a := Option.some.inj (by rw [← ha]; rfl)
    subst ha2
    decide
  · rw [lock_fix_of_not_suffix l hs]
    exact hlast

-- Basic facts about good characters.

theorem allowed_dash (A : Char → Bool) : is_allowed_branch_char A '-' = true := by
  unfold is_allowed_branch_char
  rw [show decide ('-' = '-') = true from by decide, Bool.or_true]

theorem allowed_dot (A : Char → Bool) : is_allowed_branch_char A '.' = true := by
  unfold is_allowed_branch_char
  rw [show decide ('.' = '.') = true from by decide]
  simp

theorem good_out_dash (A : Char → Bool) : good_out A '-' :=
  ⟨by decide, allowed_dash A, by decide⟩

theorem good_out_dot (A : Char → Bool) : good_out A '.' :=
  ⟨by decide, allowed_dot A, by decide⟩

theorem map_slash_ne_slash (c : Char) : map_slash c ≠ '/' := by
  unfold map_slash
  by_cases h : c = '/'
  · rw [if_pos h]; decide
  · rw [if_neg h]; exact h

theorem bad_dot_pair_dash (a : Char) : bad_dot_pair a '-' = false := by
  unfold bad_dot_pair
  rw [show decide (('-' : Char) = '.') = false from by decide, Bool.false_and]

-- Preservation of the scan invariant.

theorem scanInv_push_separator {A : Char → Bool} {st : ScanState} (h : ScanInv A st) :
    ScanInv A (push_separator st) := by
  unfold push_separator
  by_cases hs : st.prev_was_separator = true
  · rw [if_pos hs]
    have hlast : st.result.getLast? = some '-' := of_decide_eq_true (h.sep_iff.symm.trans hs)
    exact ⟨by rw [hlast]; rfl, by rw [hlast]; rfl, h.good, h.nodot⟩
  · rw [if_neg hs]
    refine ⟨?_, ?_, ?_, ?_⟩
    · rw [List.getLast?_concat]; rfl
    · rw [List.getLast?_concat]; rfl
    · intro c hc
      rcases List.mem_append.mp hc with h1 | h2
      · exact h.good c h1
      · rw [List.mem_singleton] at h2
        subst h2
        exact good_out_dash A
    · rw [has_adj_append, Bool.or_eq_false_iff, Bool.or_eq_false_iff]
      refine ⟨⟨h.nodot, rfl⟩, ?_⟩
      unfold adj_junction
      cases hgl : st.result.getLast? with
      | none => rfl
      | some a =>
        simp only [List.head?_cons]
        exact bad_dot_pair_dash a

theorem scanInv_scan_step {A : Char → Bool} {st : ScanState} (h : ScanInv A st) (c0 : Char) :
    ScanInv A (scan_step A st c0) := by
  unfold scan_step
  by_cases hw : rust_is_whitespace (map_slash c0) = true
  · rw [if_pos hw]
    exact scanInv_push_separator h
  · rw [if_neg hw]
    by_cases ha : is_allowed_branch_char A (map_slash c0) = true
    · rw [if_neg (by simp [ha])]
      by_cases hdot : map_slash c0 = '.'
      · rw [if_pos hdot]
        by_cases hep : (st.result.isEmpty || st.prev_was_separator) = true
        · rw [if_pos hep]
          exact scanInv_push_separator h
        · rw [if_neg hep]
          have hx : (st.result.isEmpty || st.prev_was_separator) = false :=
            Bool.eq_false_iff.mpr hep
          rw [Bool.or_eq_false_iff] at hx
          have hemp : st.result ≠ [] := List.isEmpty_eq_false.mp hx.1
          have hsep : st.prev_was_separator = false := hx.2
          have hnl : st.result.getLast? ≠ some '-' := by
            intro hcon
            rw [h.sep_iff, hcon] at hsep
            simp at hsep
          by_cases hpd : st.prev_was_dot = true
          · rw [if_pos hpd]
            have hlast : st.result.getLast? = some '.' :=
              of_decide_eq_true (h.dot_iff.symm.trans hpd)
            have hg : st.result.getLast hemp = '.' := by
              have he := List.getLast?_eq_getLast st.result hemp
              rw [hlast] at he
              exact (Option.some.injEq _ _ ▸ he.symm)
            have hsplit : st.result.dropLast ++ ['.'] = st.result := by
              have hd := List.dropLast_append_getLast hemp
              rw [hg] at hd
              exact hd
            have hdl : has_adj bad_dot_pair st.result.dropLast = false := by
              have := h.nodot
              rw [← hsplit] at this
              exact (has_adj_append_parts _ _ _ this).1
            unfold push_separator
            rw [if_neg (by rw [hsep]; simp)]
            refine ⟨?_, ?_, ?_, ?_⟩
            · rw [List.getLast?_concat]; rfl
            · rw [List.getLast?_concat]; rfl
            · intro c hc
              rcases List.mem_append.mp hc with h1 | h2
              · exact h.good c (List.dropLast_subset _ h1)
              · rw [List.mem_singleton] at h2
                subst h2
                exact good_out_dash A
            · rw [has_adj_append, Bool.or_eq_false_iff, Bool.or_eq_false_iff]
              refine ⟨⟨hdl, rfl⟩, ?_⟩
              unfold adj_junction
              cases hgl : st.result.dropLast.getLast? with
              | none => rfl
              | some a =>
                simp only [List.head?_cons]
                exact bad_dot_pair_dash a
          · rw [if_neg hpd]
            have hnd : st.result.getLast? ≠ some '.' := by
              intro hcon
              rw [h.dot_iff, hcon] at hpd
              simp at hpd
            refine ⟨?_, ?_, ?_, ?_⟩
            · rw [List.getLast?_concat]; rfl
            · rw [List.getLast?_concat]; rfl
            · intro c hc
              rcases List.mem_append.mp hc with h1 | h2
              · exact h.good c h1
              · rw [List.mem_singleton] at h2
                subst h2
                exact good_out_dot A
            · rw [has_adj_append, Bool.or_eq_false_iff, Bool.or_eq_false_iff]
              refine ⟨⟨h.nodot, rfl⟩, ?_⟩
              unfold adj_junction
              cases hgl : st.result.getLast? with
              | none => rfl
              | some a =>
                simp only [List.head?_cons]
                unfold bad_dot_pair
                have h1 : decide (a = '-') = false := by
                  simp only [decide_eq_false_iff_not]
                  intro hcon
                  exact hnl (by rw [hgl, hcon])
                have h2 : decide (a = '.') = false := by
                  simp only [decide_eq_false_iff_not]
                  intro hcon
                  exact hnd (by rw [hgl, hcon])
                rw [h1, h2]
                decide
      · rw [if_neg hdot]
        refine ⟨?_, ?_, ?_, ?_⟩
        · rw [List.getLast?_concat]
          simp
        · rw [List.getLast?_concat]
          simp [hdot]
        · intro c hc
          rcases List.mem_append.mp hc with h1 | h2
          · exact h.good c h1
          · rw [List.mem_singleton] at h2
            subst h2
            exact ⟨Bool.eq_false_iff.mpr hw, ha, map_slash_ne_slash c0⟩
        · rw [has_adj_append, Bool.or_eq_false_iff, Bool.or_eq_false_iff]
          refine ⟨⟨h.nodot, rfl⟩, ?_⟩
          unfold adj_junction
          cases hgl : st.result.getLast? with
          | none => rfl
          | some a =>
            simp only [List.head?_cons]
            unfold bad_dot_pair
            rw [show decide (map_slash c0 = '.') = false by simp [hdot], Bool.false_and]
    · have hf : is_allowed_branch_char A (map_slash c0) = false := Bool.eq_false_iff.mpr ha
      rw [if_pos (by simp [hf])]
      exact scanInv_push_separator h

theorem scanInv_init (A : Char → Bool) : ScanInv A ⟨[], false, false⟩ :=
  ⟨by decide, by decide, (by intro c hc; cases hc), rfl⟩

theorem scanInv_foldl {A : Char → Bool} (l : List Char) {st : ScanState} (h : ScanInv A st) :
    ScanInv A (l.foldl (scan_step A) st) := by
  induction l generalizing st with
  | nil => exact h
  | cons c t ih => exact ih (scanInv_scan_step h c)

theorem scanInv_scan_result (A : Char → Bool) (name : List Char) :
    ScanInv A ((name.foldl (scan_step A) ⟨[], false, false⟩)) :=
  scanInv_foldl name (scanInv_init A)

-- Facts about the final sanitizer output.

theorem dash_or_dot_false (a : Char) (h : dash_or_dot a = false) : a ≠ '-' ∧ a ≠ '.' := by
  unfold dash_or_dot at h
  rw [Bool.or_eq_false_iff] at h
  exact ⟨of_decide_eq_false h.1, of_decide_eq_false h.2⟩

theorem good_cleaned (A : Char → Bool) (name : List Char) :
    ∀ c ∈ cleaned_of A name, good_out A c := by
  intro c hc
  exact (scanInv_scan_result A name).good c
    (trim_matches_subset dash_or_dot (scan_result A name) c hc)

theorem nodot_cleaned (A : Char → Bool) (name : List Char) :
    has_adj bad_dot_pair (cleaned_of A name) = false :=
  has_adj_trim bad_dot_pair dash_or_dot (scan_result A name) (scanInv_scan_result A name).nodot

theorem cleaned_head (A : Char → Bool) (name : List Char) :
    ∀ a, (cleaned_of A name).head? = some a → dash_or_dot a = false := by
  intro a ha
  exact trim_matches_head dash_or_dot (scan_result A name) a ha

theorem cleaned_last (A : Char → Bool) (name : List Char) :
    ∀ a, (cleaned_of A name).getLast? = some a → dash_or_dot a = false := by
  intro a ha
  exact trim_matches_getLast dash_or_dot (scan_result A name) a ha

theorem good_sanitize_component (A : Char → Bool) (name : List Char) :
    ∀ c ∈ sanitize_component A name, good_out A c := by
  intro c hc
  rcases mem_lock_fix (cleaned_of A name) c hc with h1 | h2
  · exact good_cleaned A name c h1
  · subst h2
    exact good_out_dash A

theorem nodot_sanitize_component (A : Char → Bool) (name : List Char) :
    has_adj bad_dot_pair (sanitize_component A name) = false := by
  unfold sanitize_component
  by_cases hs : lock_chars <:+ cleaned_of A name
  · obtain ⟨w, hw⟩ := hs
    rw [lock_fix_of_suffix w _ hw]
    rw [has_adj_append, Bool.or_eq_false_iff, Bool.or_eq_false_iff]
    have hparts := has_adj_append_parts bad_dot_pair w lock_chars (by rw [hw]; exact nodot_cleaned A name)
    refine ⟨⟨hparts.1, by decide⟩, ?_⟩
    unfold adj_junction
    cases hgl : w.getLast? with
    | none => rfl
    | some a =>
      simp only [List.head?_cons]
      exact bad_dot_pair_dash a
  · rw [lock_fix_of_not_suffix _ hs]
    exact nodot_cleaned A name

theorem head_sanitize_component (A : Char → Bool) (name : List Char) :
    ∀ a, (sanitize_component A name).head? = some a → dash_or_dot a = false := by
  intro a ha
  unfold sanitize_component at ha
  cases hh : (cleaned_of A name).head? with
  | none =>
    have hnil : cleaned_of A name = [] := List.head?_eq_none_iff.mp hh
    rw [hnil] at ha
    rw [lock_fix_of_not_suffix [] (by decide)] at ha
    cases ha
  | some x =>
    have hx : dash_or_dot x = false := cleaned_head A name x hh
    have hne : (cleaned_of A name).head? ≠ some '.' := by
      rw [hh]
      intro hcon
      have := Option.some.inj hcon
      subst this
      exact absurd hx (by decide)
    rw [head?_lock_fix _ hne, hh] at ha
    have := Option.some.inj ha
    subst this
    exact hx

theorem last_sanitize_component (A : Char → Bool) (name : List Char) :
    ∀ a, (sanitize_component A name).getLast? = some a → dash_or_dot a = false :=
  getLast?_lock_fix_dash_dot (cleaned_of A name) (cleaned_last A name)

/-- C1 (amended): every character of `sanitize_component` output passes the
code's own `is_allowed_branch_char` test, i.e. it is alphanumeric in the
language's Unicode classification or one of `.`, `_`, `+`, `-`. This is
stated for an arbitrary alphanumeric classifier, so it covers Rust's
Unicode one; the original ASCII-only claim fails, see the counterexample. -/
theorem claim_C1_amended (A : Char → Bool) (name : List Char) :
    ∀ c ∈ sanitize_component A name, is_allowed_branch_char A c = true := by
  intro c hc
  exact (good_sanitize_component A name c hc).2.1

/-- Witness for C1 (amended) at the concrete input `"ab"`. -/
theorem claim_C1_witness : is_allowed_branch_char rust_is_alphanumeric 'a' = true :=
  claim_C1_amended rust_is_alphanumeric ("ab".toList) 'a' (by decide)

/-- C1 counterexample: for the input `"é"` (U+00E9, alphanumeric for Rust's
`char::is_alphanumeric`, faithfully modelled by `rust_is_alphanumeric` on
Latin-1), the sanitizer emits `'é'` unchanged, a character outside the
claimed ASCII set `{A-Za-z0-9._+-}`. -/
theorem claim_C1_counterexample :
    sanitize_component rust_is_alphanumeric [Char.ofNat 0xE9] = [Char.ofNat 0xE9] ∧
    ascii_branch_char (Char.ofNat 0xE9) = false := by
  exact ⟨by decide, by decide⟩

/-- C3 (amended): `sanitize_component` output never ends with the literal
suffix `".lock"` and never contains two consecutive `'.'` characters. The
original claim that `".lock"` never occurs anywhere fails, see the
counterexample: only the trailing occurrence is neutralized. -/
theorem claim_C3_amended (A : Char → Bool) (name : List Char) :
    ¬ lock_chars <:+ sanitize_component A name ∧
    has_adj dd_pair (sanitize_component A name) = false := by
  refine ⟨not_lock_suffix_lock_fix _, ?_⟩
  refine has_adj_mono dd_pair bad_dot_pair ?_ _ (nodot_sanitize_component A name)
  intro a b h
  unfold dd_pair at h
  rw [Bool.and_eq_true] at h
  have ha := of_decide_eq_true h.1
  have hb := of_decide_eq_true h.2
  subst ha
  subst hb
  decide

/-- C3 counterexample: the input `"a.lockb"` sanitizes to itself, and that
string contains the literal substring `".lock"` (in the interior), shown by
the explicit decomposition. -/
theorem claim_C3_counterexample :
    sanitize_component rust_is_alphanumeric "a.lockb".toList = "a.lockb".toList ∧
    "a.lockb".toList = ['a'] ++ lock_chars ++ ['b'] := by
  exact ⟨by decide, by decide⟩

/-- C4: `sanitize_component` output never starts with `'-'` or `'.'` and
never ends with `'-'` or `'.'` (stated via `head?` and `getLast?`, which
are `none` exactly when the output is empty). -/
theorem claim_C4 (A : Char → Bool) (name : List Char) :
    (∀ a, (sanitize_component A name).head? = some a → a ≠ '-' ∧ a ≠ '.') ∧
    (∀ a, (sanitize_component A name).getLast? = some a → a ≠ '-' ∧ a ≠ '.') := by
  constructor
  · intro a ha
    exact dash_or_dot_false a (head_sanitize_component A name a ha)
  · intro a ha
    exact dash_or_dot_false a (last_sanitize_component A name a ha)

/-- Witness for C4 at the concrete input `"ab"`. -/
theorem claim_C4_witness : (('a' : Char) ≠ '-' ∧ ('a' : Char) ≠ '.') ∧
    (('b' : Char) ≠ '-' ∧ ('b' : Char) ≠ '.') :=
  ⟨(claim_C4 rust_is_alphanumeric ("ab".toList)).1 'a' (by decide),
   (claim_C4 rust_is_alphanumeric ("ab".toList)).2 'b' (by decide)⟩

-- Evaluation lemmas for single scan steps.

theorem scan_step_push (A : Char → Bool) (st : ScanState) (c : Char)
    (hws : rust_is_whitespace c = false) (hal : is_allowed_branch_char A c = true)
    (hslash : c ≠ '/') (hdot : c ≠ '.') :
    scan_step A st c = ⟨st.result ++ [c], decide (c = '-'), false⟩ := by
  have hms : map_slash c = c := by
    unfold map_slash
    rw [if_neg hslash]
  unfold scan_step
  rw [hms, hws]
  rw [if_neg (by decide)]
  rw [hal]
  rw [if_neg (by decide)]
  rw [if_neg hdot]

theorem scan_step_dot_push (A : Char → Bool) (st : ScanState)
    (hne : st.result.isEmpty = false) (hsep : st.prev_was_separator = false)
    (hpd : st.prev_was_dot = false) :
    scan_step A st '.' = ⟨st.result ++ ['.'], false, true⟩ := by
  unfold scan_step
  rw [show map_slash '.' = '.' from rfl]
  rw [show rust_is_whitespace '.' = false from by decide]
  rw [if_neg (show ¬ ((false : Bool) = true) from by decide)]
  rw [allowed_dot A]
  rw [if_neg (show ¬ (((!true) : Bool) = true) from by decide)]
  rw [if_pos (show ('.' : Char) = '.' from rfl)]
  rw [hne, hsep]
  rw [if_neg (show ¬ (((false || false) : Bool) = true) from by decide)]
  rw [hpd]
  rw [if_neg (show ¬ ((false : Bool) = true) from by decide)]

theorem scan_step_dash (A : Char → Bool) (st : ScanState) :
    scan_step A st '-' = ⟨st.result ++ ['-'], true, false⟩ := by
  have h := scan_step_push A st '-' (by decide) (allowed_dash A) (by decide) (by decide)
  rw [h]
  rw [show decide (('-' : Char) = '-') = true from by decide]

-- The rescanning-identity condition.

theorem dot_ok_from_cons (p : Option Char) (b : Char) (t : List Char) :
    dot_ok_from p (b :: t) =
      ((if b = '.' then
          match p with
          | some a => !(decide (a = '-') || decide (a = '.'))
          | none => false
        else true) && dot_ok_from (some b) t) := rfl

theorem dot_ok_from_no_dot : ∀ (l : List Char) (p : Option Char),
    (∀ c ∈ l, c ≠ '.') → dot_ok_from p l = true := by
  intro l
  induction l with
  | nil => intro p _; rfl
  | cons b t ih =>
    intro p h
    rw [dot_ok_from_cons, if_neg (h b (List.mem_cons_self b t)), Bool.true_and]
    exact ih (some b) (fun c hc => h c (List.mem_cons_of_mem b hc))

theorem dot_ok_from_of_adj : ∀ (t : List Char) (a : Char),
    has_adj bad_dot_pair (a :: t) = false → dot_ok_from (some a) t = true := by
  intro t
  induction t with
  | nil => intro a _; rfl
  | cons b t' ih =>
    intro a h
    rw [show has_adj bad_dot_pair (a :: b :: t') =
      (bad_dot_pair a b || has_adj bad_dot_pair (b :: t')) from rfl,
      Bool.or_eq_false_iff] at h
    rw [dot_ok_from_cons, Bool.and_eq_true]
    refine ⟨?_, ih b h.2⟩
    by_cases hb : b = '.'
    · rw [if_pos hb]
      have hbad := h.1
      unfold bad_dot_pair at hbad
      rw [show decide (b = '.') = true from decide_eq_true hb, Bool.true_and] at hbad
      show (!(decide (a = '-') || decide (a = '.'))) = true
      rw [hbad]
      rfl
    · rw [if_neg hb]

theorem dot_ok_none (l : List Char) (hadj : has_adj bad_dot_pair l = false)
    (hhead : ∀ a, l.head? = some a → a ≠ '.') : dot_ok_from none l = true := by
  cases l with
  | nil => rfl
  | cons b t =>
    rw [dot_ok_from_cons, if_neg (hhead b rfl), Bool.true_and]
    exact dot_ok_from_of_adj t b hadj

-- Scanning an already-clean string reproduces it verbatim.

theorem scan_id_aux (A : Char → Bool) :
    ∀ (l : List Char) (st : ScanState),
    st.prev_was_separator = decide (st.result.getLast? = some '-') →
    st.prev_was_dot = decide (st.result.getLast? = some '.') →
    (∀ c ∈ l, good_out A c) →
    dot_ok_from st.result.getLast? l = true →
    List.foldl (scan_step A) st l =
      ⟨st.result ++ l, decide ((st.result ++ l).getLast? = some '-'),
        decide ((st.result ++ l).getLast? = some '.')⟩ := by
  intro l
  induction l with
  | nil =>
    intro st h1 h2 _ _
    rw [List.foldl_nil]
    cases st with
    | mk r ps pd =>
      simp only at h1 h2
      simp only [List.append_nil]
      rw [h1, h2]
  | cons b t ih =>
    intro st h1 h2 hgood hdot
    have hb : good_out A b := hgood b (List.mem_cons_self b t)
    have hgt : ∀ c ∈ t, good_out A c := fun c hc => hgood c (List.mem_cons_of_mem b hc)
    rw [List.foldl_cons]
    by_cases hbd : b = '.'
    · subst hbd
      cases hgl : st.result.getLast? with
      | none =>
        rw [hgl, dot_ok_from_cons, if_pos rfl] at hdot
        simp at hdot
      | some a =>
        rw [hgl, dot_ok_from_cons, if_pos rfl, Bool.and_eq_true] at hdot
        obtain ⟨hna, hrest⟩ := hdot
        have hna2 : (!(decide (a = '-') || decide (a = '.'))) = true := hna
        have hna' : (decide (a = '-') || decide (a = '.')) = false := by
          cases h9 : decide (a = '-') || decide (a = '.')
          · rfl
          · rw [h9] at hna2
            exact absurd hna2 (by decide)
        rw [Bool.or_eq_false_iff] at hna'
        have had : a ≠ '-' := of_decide_eq_false hna'.1
        have hadot : a ≠ '.' := of_decide_eq_false hna'.2
        have hres_ne : st.result ≠ [] := by
          intro hcon
          rw [hcon] at hgl
          simp at hgl
        have hemp : st.result.isEmpty = false := List.isEmpty_eq_false.mpr hres_ne
        have hsep : st.prev_was_separator = false := by
          rw [h1, hgl]
          rw [decide_eq_false_iff_not]
          intro hcon
          exact had (Option.some.inj hcon)
        have hpd : st.prev_was_dot = false := by
          rw [h2, hgl]
          rw [decide_eq_false_iff_not]
          intro hcon
          exact hadot (Option.some.inj hcon)
        rw [scan_step_dot_push A st hemp hsep hpd]
        have hf1 : (false : Bool) = decide ((st.result ++ ['.']).getLast? = some '-') := by
          rw [List.getLast?_concat]
          rfl
        have hf2 : (true : Bool) = decide ((st.result ++ ['.']).getLast? = some '.') := by
          rw [List.getLast?_concat]
          rfl
        have hd2 : dot_ok_from (st.result ++ ['.']).getLast? t = true := by
          rw [List.getLast?_concat]
          exact hrest
        have hrec := ih ⟨st.result ++ ['.'], false, true⟩ hf1 hf2 hgt hd2
        rw [hrec]
        have hl : (st.result ++ ['.']) ++ t = st.result ++ ('.' :: t) := by
          rw [List.append_assoc]
          rfl
        rw [hl]
    · rw [dot_ok_from_cons, if_neg hbd, Bool.true_and] at hdot
      rw [scan_step_push A st b hb.1 hb.2.1 hb.2.2 hbd]
      have hf1 : decide (b = '-') = decide ((st.result ++ [b]).getLast? = some '-') := by
        rw [List.getLast?_concat]
        exact decide_eq_decide.mpr (by simp)
      have hf2 : (false : Bool) = decide ((st.result ++ [b]).getLast? = some '.') := by
        rw [List.getLast?_concat]
        symm
        rw [decide_eq_false_iff_not]
        simp [hbd]
      have hd2 : dot_ok_from (st.result ++ [b]).getLast? t = true := by
        rw [List.getLast?_concat]
        exact hdot
      have hrec := ih ⟨st.result ++ [b], decide (b = '-'), false⟩ hf1 hf2 hgt hd2
      rw [hrec]
      have hl : (st.result ++ [b]) ++ t = st.result ++ (b :: t) := by
        rw [List.append_assoc]
        rfl
      rw [hl]

theorem dropWhile_eq_self_of_head (p : Char → Bool) (l : List Char)
    (h : ∀ a, l.head? = some a → p a = false) : l.dropWhile p = l := by
  cases l with
  | nil => rfl
  | cons x t =>
    rw [List.dropWhile_cons, if_neg (by simp [h x rfl])]

theorem trim_matches_noop (p : Char → Bool) (l : List Char)
    (hh : ∀ a, l.head? = some a → p a = false)
    (hl : ∀ a, l.getLast? = some a → p a = false) : trim_matches p l = l := by
  unfold trim_matches
  rw [dropWhile_eq_self_of_head p l hh]
  rw [dropWhile_eq_self_of_head p l.reverse
    (by intro a ha; rw [List.head?_reverse] at ha; exact hl a ha)]
  exact List.reverse_reverse l

theorem cleanStr_id (A : Char → Bool) (l : List Char) (h : CleanStr A l) :
    sanitize_component A l = l := by
  have hscan : scan_result A l = l := by
    unfold scan_result
    have hid := scan_id_aux A l ⟨[], false, false⟩ (by decide) (by decide) h.good h.dots
    rw [hid]
    simp
  unfold sanitize_component cleaned_of
  rw [hscan]
  rw [trim_matches_noop dash_or_dot l h.head_ok h.last_ok]
  exact lock_fix_of_not_suffix l h.no_lock

theorem cleanStr_sanitize_component (A : Char → Bool) (name : List Char) :
    CleanStr A (sanitize_component A name) := by
  refine ⟨good_sanitize_component A name, ?_, head_sanitize_component A name,
    last_sanitize_component A name, not_lock_suffix_lock_fix _⟩
  apply dot_ok_none
  · exact nodot_sanitize_component A name
  · intro a ha
    exact (dash_or_dot_false a (head_sanitize_component A name a ha)).2

theorem sanitize_component_idem (A : Char → Bool) (x : List Char) :
    sanitize_component A (sanitize_component A x) = sanitize_component A x :=
  cleanStr_id A _ (cleanStr_sanitize_component A x)

-- All-digit strings (in particular date stamps) are clean.

theorem is_ascii_digit_not_ws (c : Char) (h : is_ascii_digit c = true) :
    rust_is_whitespace c = false := by
  unfold is_ascii_digit at h
  rw [Bool.and_eq_true] at h
  have h1 := of_decide_eq_true h.1
  have h2 := of_decide_eq_true h.2
  rw [Bool.eq_false_iff]
  intro hws
  unfold rust_is_whitespace at hws
  simp only [Bool.or_eq_true, Bool.and_eq_true, decide_eq_true_eq] at hws
  omega

theorem is_ascii_digit_alnum (c : Char) (h : is_ascii_digit c = true) :
    rust_is_alphanumeric c = true := by
  unfold is_ascii_digit at h
  rw [Bool.and_eq_true] at h
  have h1 := of_decide_eq_true h.1
  have h2 := of_decide_eq_true h.2
  unfold rust_is_alphanumeric
  simp only [Bool.or_eq_true, Bool.and_eq_true, decide_eq_true_eq]
  omega

theorem is_ascii_digit_good (c : Char) (h : is_ascii_digit c = true) :
    good_out rust_is_alphanumeric c := by
  refine ⟨is_ascii_digit_not_ws c h, ?_, ?_⟩
  · unfold is_allowed_branch_char
    rw [is_ascii_digit_alnum c h]
    simp
  · intro hcon
    subst hcon
    exact absurd h (by decide)

theorem digit_not_dash_or_dot (c : Char) (h : is_ascii_digit c = true) :
    dash_or_dot c = false := by
  unfold dash_or_dot
  rw [Bool.or_eq_false_iff]
  constructor <;> rw [decide_eq_false_iff_not] <;> intro hcon <;> subst hcon <;>
    exact absurd h (by decide)

theorem cleanStr_digits (stamp : List Char) (h : stamp.all is_ascii_digit = true) :
    CleanStr rust_is_alphanumeric stamp := by
  have hmem : ∀ c ∈ stamp, is_ascii_digit c = true := by
    intro c hc
    exact List.all_eq_true.mp h c hc
  refine ⟨?_, ?_, ?_, ?_, ?_⟩
  · intro c hc
    exact is_ascii_digit_good c (hmem c hc)
  · apply dot_ok_from_no_dot
    intro c hc
    exact (dash_or_dot_false c (digit_not_dash_or_dot c (hmem c hc))).2
  · intro a ha
    exact digit_not_dash_or_dot a (hmem a (List.mem_of_mem_head? (by rw [ha]; rfl)))
  · intro a ha
    exact digit_not_dash_or_dot a (hmem a (mem_of_getLast?_eq _ a ha))
  · rintro ⟨w, hw⟩
    have hk : 'k' ∈ stamp := by
      rw [← hw]
      simp [lock_chars]
    exact absurd (hmem 'k' hk) (by decide)

/-- C5: the sanitizer is idempotent. First, `sanitize_component` is
idempotent for every input and every alphanumeric classifier; second, the
full `sanitize` wrapper (with its date-stamp fallback) is idempotent for
every input once the stamp is held fixed within the run, using that a date
stamp is a nonempty all-digit string. -/
theorem claim_C5 (A : Char → Bool) (stamp x : List Char) :
    (sanitize_component A (sanitize_component A x) = sanitize_component A x) ∧
    (stamp.all is_ascii_digit = true → stamp ≠ [] →
      sanitize rust_is_alphanumeric stamp (sanitize rust_is_alphanumeric stamp x) =
        sanitize rust_is_alphanumeric stamp x) := by
  refine ⟨sanitize_component_idem A x, ?_⟩
  intro hdig hne
  unfold sanitize
  by_cases hx : sanitize_component rust_is_alphanumeric x = []
  · rw [hx]
    rw [if_pos rfl]
    rw [cleanStr_id rust_is_alphanumeric stamp (cleanStr_digits stamp hdig)]
    rw [if_neg hne]
  · rw [if_neg hx]
    rw [sanitize_component_idem rust_is_alphanumeric x]
    rw [if_neg hx]

/-- Witness for C5 at a concrete stamp and input. -/
theorem claim_C5_witness :
    sanitize rust_is_alphanumeric ("251231".toList)
        (sanitize rust_is_alphanumeric ("251231".toList) ("fix login bug".toList)) =
      sanitize rust_is_alphanumeric ("251231".toList) ("fix login bug".toList) :=
  (claim_C5 rust_is_alphanumeric ("251231".toList) ("fix login bug".toList)).2
    (by decide) (by decide)

-- The collision resolver.

theorem try_suffixes_sound (cand : List Char) (ex : List (List Char)) :
    ∀ (L : List Nat) (r : List Char),
    try_suffixes cand ex L = some r → r ∉ ex ∧ ∃ i ∈ L, r = with_suffix cand i := by
  intro L
  induction L with
  | nil => intro r h; cases h
  | cons i rest ih =>
    intro r h
    unfold try_suffixes at h
    by_cases hm : with_suffix cand i ∈ ex
    · rw [if_pos hm] at h
      obtain ⟨h1, i', hi', h2⟩ := ih r h
      exact ⟨h1, i', List.mem_cons_of_mem i hi', h2⟩
    · rw [if_neg hm] at h
      have he := Option.some.inj h
      subst he
      exact ⟨hm, i, List.mem_cons_self i rest, rfl⟩

theorem range_map_succ_shift (cnt s : Nat) :
    (List.range (cnt + 1)).map (· + s) = s :: (List.range cnt).map (· + (s + 1)) := by
  rw [List.range_succ_eq_map, List.map_cons, List.map_map]
  congr 1
  · simp
  · apply List.map_congr_left
    intro m _
    simp [Function.comp]
    omega

theorem try_suffixes_range_none (cand : List Char) (ex : List (List Char)) :
    ∀ (cnt s : Nat),
    (∀ j, s ≤ j → j < s + cnt → with_suffix cand j ∈ ex) →
    try_suffixes cand ex ((List.range cnt).map (· + s)) = none := by
  intro cnt
  induction cnt with
  | zero => intro s _; rfl
  | succ n ih =>
    intro s h
    rw [range_map_succ_shift]
    unfold try_suffixes
    rw [if_pos (h s le_rfl (by omega))]
    exact ih (s + 1) (fun j hj1 hj2 => h j (by omega) (by omega))

theorem try_suffixes_range_found (cand : List Char) (ex : List (List Char)) :
    ∀ (cnt s i : Nat),
    s ≤ i → i < s + cnt →
    (∀ j, s ≤ j → j < i → with_suffix cand j ∈ ex) →
    with_suffix cand i ∉ ex →
    try_suffixes cand ex ((List.range cnt).map (· + s)) = some (with_suffix cand i) := by
  intro cnt
  induction cnt with
  | zero => intro s i h1 h2 _ _; omega
  | succ n ih =>
    intro s i h1 h2 hall hi
    rw [range_map_succ_shift]
    unfold try_suffixes
    by_cases hsi : i = s
    · subst hsi
      rw [if_neg hi]
    · rw [if_pos (hall s le_rfl (by omega))]
      exact ih (s + 1) i (by omega) (by omega) (fun j hj1 hj2 => hall j (by omega) hj2) hi

/-- C2: `pick_available_name` returns the candidate itself when it is not
in the existing set; otherwise the first available probe `candidate_i` for
the smallest `i` in `[2, 100]` not in the set; `none` (the exhaustion
`bail!`) when the candidate and all probes `_2` through `_100` are taken;
plus the two concrete examples from the spec. -/
theorem claim_C2 (cand : List Char) (ex : List (List Char)) :
    (cand ∉ ex → pick_available_name cand ex = some cand) ∧
    (∀ i, cand ∈ ex → 2 ≤ i → i ≤ 100 →
      (∀ j, 2 ≤ j → j < i → with_suffix cand j ∈ ex) → with_suffix cand i ∉ ex →
      pick_available_name cand ex = some (with_suffix cand i)) ∧
    (cand ∈ ex → (∀ i, 2 ≤ i → i ≤ 100 → with_suffix cand i ∈ ex) →
      pick_available_name cand ex = none) ∧
    pick_available_name ("user/240101".toList)
      ["user/240101".toList, "user/240101_2".toList, "user/240101_3".toList] =
      some ("user/240101_4".toList) ∧
    pick_available_name ("user/240101".toList) [] = some ("user/240101".toList) := by
  refine ⟨?_, ?_, ?_, by decide, by decide⟩
  · intro h
    unfold pick_available_name
    rw [if_neg h]
  · intro i hmem h2 h100 hall hi
    unfold pick_available_name
    rw [if_pos hmem]
    exact try_suffixes_range_found cand ex 99 2 i h2 (by omega) hall hi
  · intro hmem hall
    unfold pick_available_name
    rw [if_pos hmem]
    exact try_suffixes_range_none cand ex 99 2 (fun j hj1 hj2 => hall j hj1 (by omega))

/-- Witness for C2 at a concrete candidate and empty set. -/
theorem claim_C2_witness : pick_available_name ("x".toList) [] = some ("x".toList) :=
  (claim_C2 ("x".toList) []).1 (by decide)

/-- C9 (implicit): a successful `pick_available_name` result is never a
member of the existing set, and is either the candidate itself or the
candidate followed by `'_'` and the decimal digits of some `i` in
`[2, 100]`; in particular the candidate is a prefix of the result. -/
theorem claim_C9 (cand : List Char) (ex : List (List Char)) (r : List Char)
    (h : pick_available_name cand ex = some r) :
    r ∉ ex ∧ (r = cand ∨ ∃ i, 2 ≤ i ∧ i ≤ 100 ∧ r = with_suffix cand i) ∧
      ∃ t, r = cand ++ t := by
  unfold pick_available_name at h
  by_cases hm : cand ∈ ex
  · rw [if_pos hm] at h
    obtain ⟨h1, i, hi, h2⟩ := try_suffixes_sound cand ex probe_indices r h
    have hrange : 2 ≤ i ∧ i ≤ 100 := by
      unfold probe_indices at hi
      rw [List.mem_map] at hi
      obtain ⟨m, hm', rfl⟩ := hi
      rw [List.mem_range] at hm'
      omega
    exact ⟨h1, Or.inr ⟨i, hrange.1, hrange.2, h2⟩, ⟨'_' :: nat_digits i, by rw [h2]; rfl⟩⟩
  · rw [if_neg hm] at h
    have he := Option.some.inj h
    subst he
    exact ⟨hm, Or.inl rfl, ⟨[], (List.append_nil cand).symm⟩⟩

/-- Witness for C9 at a concrete candidate and empty set. -/
theorem claim_C9_witness :
    ("a".toList ∉ ([] : List (List Char))) ∧
    ("a".toList = "a".toList ∨
      ∃ i, 2 ≤ i ∧ i ≤ 100 ∧ "a".toList = with_suffix ("a".toList) i) ∧
    ∃ t, "a".toList = "a".toList ++ t :=
  claim_C9 ("a".toList) [] ("a".toList) (by decide)

/-- C6: when the trimmed scan result ends with `".lock"`, the final output
replaces the character at index `len - 5` (the dot opening that suffix)
with `'-'`; and concretely `sanitize("build.lock") = "build-lock"` for any
date stamp. -/
theorem claim_C6 (A : Char → Bool) (name : List Char)
    (h : lock_chars <:+ cleaned_of A name) :
    sanitize_component A name =
      (cleaned_of A name).take ((cleaned_of A name).length - 5) ++
        ('-' :: ['l', 'o', 'c', 'k']) ∧
    (sanitize_component A name)[(cleaned_of A name).length - 5]? = some '-' ∧
    (∀ stamp, sanitize rust_is_alphanumeric stamp ("build.lock".toList) =
      "build-lock".toList) := by
  obtain ⟨w, hw⟩ := h
  have heq : sanitize_component A name = w ++ ('-' :: ['l', 'o', 'c', 'k']) := by
    unfold sanitize_component
    exact lock_fix_of_suffix w _ hw
  have hlen : (cleaned_of A name).length - 5 = w.length := by
    rw [← hw]
    simp [List.length_append, lock_chars]
  have htake : (cleaned_of A name).take ((cleaned_of A name).length - 5) = w := by
    rw [hlen, ← hw, List.take_left]
  refine ⟨by rw [heq, htake], ?_, ?_⟩
  · rw [heq, hlen]
    rw [List.getElem?_append_right (le_refl w.length)]
    simp
  · intro stamp
    have hsc : sanitize_component rust_is_alphanumeric ("build.lock".toList) =
        "build-lock".toList := by decide
    simp only [sanitize]
    rw [hsc]
    rw [if_neg (by decide)]

/-- Witness for C6 at the concrete input `"build.lock"`. -/
theorem claim_C6_witness :
    sanitize_component rust_is_alphanumeric ("build.lock".toList) =
      (cleaned_of rust_is_alphanumeric ("build.lock".toList)).take
        ((cleaned_of rust_is_alphanumeric ("build.lock".toList)).length - 5) ++
        ('-' :: ['l', 'o', 'c', 'k']) :=
  (claim_C6 rust_is_alphanumeric ("build.lock".toList) (by decide)).1

-- The name builder and the date stamp.

theorem pad2_all_digits (n : Nat) : ∀ c ∈ pad2 n, is_ascii_digit c = true := by
  intro c hc
  unfold pad2 at hc
  rcases List.mem_cons.mp hc with rfl | hc2
  · have h1 : n / 10 % 10 < 10 := Nat.mod_lt _ (by omega)
    revert h1
    generalize n / 10 % 10 = k
    intro h1
    interval_cases k <;> decide
  · rw [List.mem_singleton] at hc2
    subst hc2
    have h2 : n % 10 < 10 := Nat.mod_lt _ (by omega)
    revert h2
    generalize n % 10 = k
    intro h2
    interval_cases k <;> decide

theorem today_stamp_all_digits (y m d : Nat) :
    (today_stamp y m d).all is_ascii_digit = true := by
  rw [List.all_eq_true]
  intro c hc
  unfold today_stamp at hc
  rcases List.mem_append.mp hc with h | h
  · rcases List.mem_append.mp h with h2 | h2
    · exact pad2_all_digits y c h2
    · exact pad2_all_digits m c h2
  · exact pad2_all_digits d c h

theorem today_stamp_length (y m d : Nat) : (today_stamp y m d).length = 6 := rfl

theorem intercalate_space_cons (a : List Char) (rest : List (List Char)) :
    List.intercalate [' '] (a :: rest) = a ++ (rest.map (fun s => ' ' :: s)).flatten := by
  induction rest generalizing a with
  | nil => simp [List.intercalate]
  | cons b t ih =>
    rw [List.intercalate, List.intersperse_cons_cons]
    rw [List.flatten_cons, List.flatten_cons]
    have ihb := ih b
    rw [List.intercalate] at ihb
    rw [ihb]
    rfl

/-- C7: `build_base_name` on an empty token list is the date stamp, which
is a six-character all-digit string; on a nonempty token list it joins the
tokens with exactly one space before each subsequent token. -/
theorem claim_C7 (y m d : Nat) (args : List (List Char)) :
    (args = [] → build_base_name (today_stamp y m d) args = today_stamp y m d) ∧
    (today_stamp y m d).length = 6 ∧
    (today_stamp y m d).all is_ascii_digit = true ∧
    (∀ a rest, args = a :: rest →
      build_base_name (today_stamp y m d) args =
        a ++ (rest.map (fun s => ' ' :: s)).flatten) := by
  refine ⟨?_, today_stamp_length y m d, today_stamp_all_digits y m d, ?_⟩
  · intro h
    unfold build_base_name
    rw [if_pos h]
  · intro a rest h
    subst h
    unfold build_base_name
    rw [if_neg (by simp)]
    exact intercalate_space_cons a rest

/-- Witness for C7 at concrete dates and token lists. -/
theorem claim_C7_witness :
    build_base_name (today_stamp 25 12 31) [] = today_stamp 25 12 31 ∧
    build_base_name (today_stamp 25 12 31) ["fix".toList, "login".toList] =
      "fix".toList ++ (["login".toList].map (fun s => ' ' :: s)).flatten :=
  ⟨(claim_C7 25 12 31 []).1 rfl,
   (claim_C7 25 12 31 ["fix".toList, "login".toList]).2.2.2
     ("fix".toList) ["login".toList] rfl⟩

-- Prefix resolution.

theorem get_prefix_fn_env (A : Char → Bool) (p user : List Char)
    (hne : rust_trim p ≠ []) :
    get_prefix_fn A (some p) user =
      if sanitize_component A (rust_trim p) = [] then Except.error PrefixError.envInvalid
      else Except.ok (sanitize_component A (rust_trim p)) := by
  show (let pair : List Char × Bool :=
          if rust_trim p = [] then (rust_trim user, false) else (p, true)
        let sanitized := sanitize_component A (rust_trim pair.1)
        if sanitized = [] then
          Except.error (if pair.2 then PrefixError.envInvalid else PrefixError.userInvalid)
        else Except.ok sanitized) = _
  rw [if_neg hne]
  rfl

theorem get_prefix_fn_env_empty (A : Char → Bool) (p user : List Char)
    (he : rust_trim p = []) :
    get_prefix_fn A (some p) user = get_prefix_fn A none user := by
  show (let pair : List Char × Bool :=
          if rust_trim p = [] then (rust_trim user, false) else (p, true)
        let sanitized := sanitize_component A (rust_trim pair.1)
        if sanitized = [] then
          Except.error (if pair.2 then PrefixError.envInvalid else PrefixError.userInvalid)
        else Except.ok sanitized) = _
  rw [if_pos he]
  rfl

theorem get_prefix_fn_none (A : Char → Bool) (user : List Char) :
    get_prefix_fn A none user =
      if sanitize_component A (rust_trim (rust_trim user)) = [] then
        Except.error PrefixError.userInvalid
      else Except.ok (sanitize_component A (rust_trim (rust_trim user))) := rfl

/-- C8: prefix resolution fails exactly when the chosen raw prefix (the
set, nonempty-after-trim `GNB_PREFIX` value if present, else the trimmed
system username) sanitizes to the empty string; the error distinguishes the
environment-override source from the system-identity source; otherwise the
sanitized string is returned. -/
theorem claim_C8 (A : Char → Bool) (env_var : Option (List Char)) (user : List Char) :
    (∀ p, env_var = some p → rust_trim p ≠ [] →
      (sanitize_component A (rust_trim p) = [] →
        get_prefix_fn A env_var user = Except.error PrefixError.envInvalid) ∧
      (sanitize_component A (rust_trim p) ≠ [] →
        get_prefix_fn A env_var user = Except.ok (sanitize_component A (rust_trim p)))) ∧
    ((env_var = none ∨ ∃ p, env_var = some p ∧ rust_trim p = []) →
      (sanitize_component A (rust_trim (rust_trim user)) = [] →
        get_prefix_fn A env_var user = Except.error PrefixError.userInvalid) ∧
      (sanitize_component A (rust_trim (rust_trim user)) ≠ [] →
        get_prefix_fn A env_var user =
          Except.ok (sanitize_component A (rust_trim (rust_trim user))))) := by
  constructor
  · intro p hp hne
    subst hp
    rw [get_prefix_fn_env A p user hne]
    constructor
    · intro h0
      rw [if_pos h0]
    · intro h0
      rw [if_neg h0]
  · intro hcase
    have hred : get_prefix_fn A env_var user = get_prefix_fn A none user := by
      rcases hcase with rfl | ⟨p, rfl, he⟩
      · rfl
      · exact get_prefix_fn_env_empty A p user he
    rw [hred, get_prefix_fn_none]
    constructor
    · intro h0
      rw [if_pos h0]
    · intro h0
      rw [if_neg h0]

/-- Witness for C8: a set override `"CI Bot"` wins over the username and is
returned sanitized. -/
theorem claim_C8_witness :
    get_prefix_fn rust_is_alphanumeric (some ("CI Bot".toList)) ("alice".toList) =
      Except.ok (sanitize_component rust_is_alphanumeric (rust_trim ("CI Bot".toList))) :=
  ((claim_C8 rust_is_alphanumeric (some ("CI Bot".toList)) ("alice".toList)).1
    ("CI Bot".toList) rfl (by decide)).2 (by decide)

/-- C10 (implicit): the scanning loop pushes a literal `'-'` unconditionally
(for every state, in particular right after another `'-'`), so runs of
hyphens from the input survive; concretely
`sanitize_component("a--b") = "a--b"`. -/
theorem claim_C10 (A : Char → Bool) (st : ScanState) :
    scan_step A st '-' = ⟨st.result ++ ['-'], true, false⟩ ∧
    sanitize_component rust_is_alphanumeric ("a--b".toList) = "a--b".toList :=
  ⟨scan_step_dash A st, by decide⟩
